import Mathlib

/-!
Verification of the ingestion pipeline of summer-the-explorer.

Shallow embedding of the parts of the source the claims are about:
shell-history reconstruction (oculus/src/zenith/mod.rs and
oculus/src/init/mod.rs, function process_user_payouts), the leaderboard
upsert paths (zenith sync_leaderboard_data and forge/sync.rs
sync_user_shell_data), the data-store writers with parent-existence
checks (forge/store.rs), the paged fetch with bounded concurrency and
cursor advance (forge/fetch.rs, forge/mod.rs), the HTTP retry loop
(common/src/services/external.rs fetch_with_retry), the trace user
selection (trace/update.rs, trace/mod.rs), and the embedding service
(common/src/services/embedding.rs).

Modelling conventions: timestamps are naturals (the upstream created_at
strings compare chronologically), database tables are lists, machine
integers i32/i64 are Int (no arithmetic here approaches the overflow
boundary), and f32 arithmetic inside the embedding service is idealised
over the reals with the neural model itself kept abstract, as the spec
treats it (a black-box function to 384 dimensions).
-/

namespace SummerExplorer

/-! ## Shell-history reconstruction (zenith/mod.rs lines 144-192 and
init/mod.rs lines 316-369; both functions are textually the same
algorithm) -/

/-- Payout as delivered by the leaderboard: a creation timestamp and the
signed integer diff.  In the source the amount travels as a decimal
string and is parsed as f64 then truncated to i32; the string-to-integer
parse is abstracted away and the already-truncated diff is carried. -/
structure RawPayout where
  created_at : Nat
  amount : Int
deriving Repr, DecidableEq

/-- Row of the shell_history table as assembled by process_user_payouts. -/
structure ShellEntry where
  recorded_at : Nat
  shells_then : Int
  shell_diff : Int
  shells : Int
deriving Repr, DecidableEq

/-- Ascending comparison on created_at used by sorted_payouts.sort_by. -/
def payoutLe (a b : RawPayout) : Prop := a.created_at ≤ b.created_at

instance : DecidableRel payoutLe := fun a b => Nat.decLe a.created_at b.created_at

/-- Reverse-chronological walk of zenith/init process_user_payouts:
running starts at final_shells; each payout emits
(recorded_at, running - d, d, running) and running becomes running - d. -/
def buildEntriesDesc : Int → List RawPayout → List ShellEntry
  | _, [] => []
  | running, p :: ps =>
    { recorded_at := p.created_at
      shells_then := running - p.amount
      shell_diff := p.amount
      shells := running } :: buildEntriesDesc (running - p.amount) ps

/-- Full reconstruction from zenith/init process_user_payouts: sort the
payouts ascending by created_at, iterate them in reverse emitting entries,
then reverse the emitted list. -/
def process_user_payouts (final_shells : Int) (payouts : List RawPayout) :
    List ShellEntry :=
  (buildEntriesDesc final_shells
    ((List.insertionSort payoutLe payouts).reverse)).reverse

theorem buildEntriesDesc_row_sum (running : Int) (l : List RawPayout) :
    ∀ e ∈ buildEntriesDesc running l, e.shells_then + e.shell_diff = e.shells := by
  induction l generalizing running with
  | nil => intro e he; cases he
  | cons p ps ih =>
    intro e he
    rcases List.mem_cons.mp he with rfl | he
    · simp
    · exact ih (running - p.amount) e he

theorem buildEntriesDesc_chain (running : Int) (l : List RawPayout) :
    List.Chain' (fun a b => b.shells = a.shells_then)
      (buildEntriesDesc running l) := by
  induction l generalizing running with
  | nil => exact List.chain'_nil
  | cons p ps ih =>
    cases ps with
    | nil => exact List.chain'_singleton _
    | cons q qs =>
      exact List.chain'_cons.mpr ⟨rfl, ih (running - p.amount)⟩

/-- C1.  For every final total and payout list, the init-time
reconstruction (sort ascending, walk in reverse from the current total,
reverse the emitted list) yields rows with shells_then + shell_diff =
shells, with each row's shells equal to the next row's shells_then, and
on final_shells = 50 with payouts (t1,+10),(t2,-5),(t3,+45), t1<t2<t3, it
emits exactly (t1,0,10,10),(t2,10,-5,5),(t3,5,45,50) in recorded_at
order. -/
theorem process_user_payouts_chain (final_shells : Int) (payouts : List RawPayout) :
    (∀ e ∈ process_user_payouts final_shells payouts,
        e.shells_then + e.shell_diff = e.shells)
    ∧ List.Chain' (fun a b => a.shells = b.shells_then)
        (process_user_payouts final_shells payouts)
    ∧ process_user_payouts 50
        [⟨1, 10⟩, ⟨2, -5⟩, ⟨3, 45⟩] =
        [⟨1, 0, 10, 10⟩, ⟨2, 10, -5, 5⟩, ⟨3, 5, 45, 50⟩] := by
  refine ⟨?_, ?_, by decide⟩
  · intro e he
    rw [process_user_payouts, List.mem_reverse] at he
    exact buildEntriesDesc_row_sum _ _ e he
  · rw [process_user_payouts, List.chain'_reverse]
    exact buildEntriesDesc_chain _ _

/-- Witness for C1: the reconstruction evaluated at the concrete S4
scenario. -/
theorem process_user_payouts_chain_witness :
    process_user_payouts 50 [⟨1, 10⟩, ⟨2, -5⟩, ⟨3, 45⟩] =
      [⟨1, 0, 10, 10⟩, ⟨2, 10, -5, 5⟩, ⟨3, 5, 45, 50⟩] :=
  (process_user_payouts_chain 0 []).2.2

/-! ## Leaderboard upsert paths (zenith/mod.rs sync_leaderboard_data lines
47-82 and forge/sync.rs sync_user_shell_data lines 78-120) -/

/-- Entry of the upstream leaderboard response: slack id, current total,
and an optional payout list. -/
structure LeaderboardEntry where
  slack_id : String
  shells : Int
  payouts : Option (List RawPayout)
deriving Repr, DecidableEq

/-- Users-table view used by both sweeps: association of slack_id with the
(nullable) current_shells column. -/
def UsersShells := List (String × Option Int)

/-- Lookup of a user's row: none when no row exists, some c when a row
exists with current_shells = c. -/
def lookupShells (db : UsersShells) (sid : String) : Option (Option Int) :=
  (List.find? (fun p => p.1 = sid) db).map (·.2)

/-- Actions the zenith per-user step takes for one leaderboard entry. -/
structure ZenithUserActions where
  created : Bool
  updated_shells : Bool
  history_inserts : List ShellEntry
deriving Repr, DecidableEq

/-- Per-entry body of zenith sync_leaderboard_data: update current_shells
only when the stored value is NULL or differs; create the user when
absent; then, whenever the payouts list is present and non-empty, run the
full process_user_payouts reconstruction pass. -/
def zenith_process_entry (db : UsersShells) (e : LeaderboardEntry) :
    ZenithUserActions :=
  let user_exists := (lookupShells db e.slack_id).isSome
  let needs_update :=
    match lookupShells db e.slack_id with
    | some none => true
    | some (some s) => decide (s ≠ e.shells)
    | none => false
  { created := !user_exists
    updated_shells := user_exists && needs_update
    history_inserts :=
      match e.payouts with
      | some ps => if ps.isEmpty then [] else process_user_payouts e.shells ps
      | none => [] }

/-- Actions the forge per-user step takes for one leaderboard entry. -/
structure ForgeUserActions where
  row_affected : Bool
  ran_payout_pass : Bool
deriving Repr, DecidableEq

/-- Per-entry body of forge sync_user_shell_data: the upsert's WHERE
users.current_shells IS DISTINCT FROM EXCLUDED.current_shells makes
rows_affected positive exactly when the user is new or the stored
current_shells differs from the reported shells; the incremental payout
pass (process_new_payouts) runs only when rows_affected > 0 and a payouts
list is present. -/
def forge_process_entry (db : UsersShells) (e : LeaderboardEntry) :
    ForgeUserActions :=
  let affected :=
    match lookupShells db e.slack_id with
    | none => true
    | some stored => decide (stored ≠ some e.shells)
  { row_affected := affected
    ran_payout_pass := affected && e.payouts.isSome }

/-- C5 counterexample: a user stored with current_shells = 50 and a
leaderboard entry reporting the same 50 shells, yet the zenith sweep still
runs the history-reconstruction pass because the payout list is
non-empty. -/
theorem zenith_reconstructs_unchanged_user :
    lookupShells [("u", some 50)] "u" = some (some 50)
    ∧ (zenith_process_entry [("u", some 50)] ⟨"u", 50, some [⟨1, 10⟩]⟩).updated_shells
        = false
    ∧ (zenith_process_entry [("u", some 50)] ⟨"u", 50, some [⟨1, 10⟩]⟩).history_inserts
        ≠ [] := by
  refine ⟨rfl, rfl, ?_⟩
  decide

/-- C5 amended.  Only the forge incremental path restricts the
payout-reconstruction pass to entries whose upsert affected a row: when
the stored current_shells equals the reported shells, forge runs no
reconstruction, while zenith performs the full reconstruction pass for
every entry with a present non-empty payouts list, whether or not the
shells changed. -/
theorem reconstruction_trigger (db : UsersShells) (e : LeaderboardEntry) :
    (lookupShells db e.slack_id = some (some e.shells) →
      (forge_process_entry db e).ran_payout_pass = false)
    ∧ (∀ ps, e.payouts = some ps → ps ≠ [] →
        (zenith_process_entry db e).history_inserts =
          process_user_payouts e.shells ps) := by
  constructor
  · intro h
    simp [forge_process_entry, h]
  · intro ps hps hne
    simp [zenith_process_entry, hps, List.isEmpty_iff, hne]

/-- Witness for C5: the amended statement applied to the concrete
counterexample entry. -/
theorem reconstruction_trigger_witness :
    (forge_process_entry [("u", some 50)] ⟨"u", 50, some [⟨1, 10⟩]⟩).ran_payout_pass
      = false
    ∧ (zenith_process_entry [("u", some 50)] ⟨"u", 50, some [⟨1, 10⟩]⟩).history_inserts
      = process_user_payouts 50 [⟨1, 10⟩] :=
  ⟨(reconstruction_trigger [("u", some 50)] ⟨"u", 50, some [⟨1, 10⟩]⟩).1 (by decide),
   (reconstruction_trigger [("u", some 50)] ⟨"u", 50, some [⟨1, 10⟩]⟩).2
     [⟨1, 10⟩] rfl (by decide)⟩

/-! ## Data-store writers with parent-existence checks (forge/store.rs) -/

/-- Error taxonomy of oculus/src/core (JobError variants actually used by
the embedded code paths). -/
inductive JobError where
  | Database (msg : String)
  | ExternalApi (msg : String)
  | Embedding (msg : String)
  | Other (msg : String)
deriving Repr, DecidableEq

/-- Upstream project record (fields the store path reads). -/
structure RawProject where
  id : Int
  slack_id : String
deriving Repr, DecidableEq

/-- Upstream devlog record (fields the store path reads). -/
structure RawDevlog where
  id : Int
  project_id : Int
  slack_id : String
deriving Repr, DecidableEq

/-- Upstream comment record (fields the store path reads); the comments
table deduplicates on the composite key (devlog_id, slack_id). -/
structure RawComment where
  devlog_id : Int
  slack_id : String
deriving Repr, DecidableEq

/-- Mirror-store state: primary keys of the three tables. -/
structure StoreState where
  projectIds : List Int
  devlogIds : List Int
  commentKeys : List (Int × String)
deriving Repr, DecidableEq

/-- State change of DataStore::store_project_with_embedding: INSERT ... ON
CONFLICT (id) DO NOTHING. -/
def storeProjectState (s : StoreState) (p : RawProject) : StoreState :=
  if p.id ∈ s.projectIds then s
  else { s with projectIds := s.projectIds ++ [p.id] }

/-- State change of DataStore::store_devlog_with_embedding: the insert runs
only when SELECT 1 FROM projects WHERE id = project_id is non-empty, with
ON CONFLICT (id) DO NOTHING; a missing parent is skipped with a debug
log. -/
def storeDevlogState (s : StoreState) (d : RawDevlog) : StoreState :=
  if d.project_id ∈ s.projectIds then
    if d.id ∈ s.devlogIds then s
    else { s with devlogIds := s.devlogIds ++ [d.id] }
  else s

/-- State change of DataStore::store_comment_with_embedding: the insert
runs only when SELECT 1 FROM logs WHERE id = devlog_id is non-empty, with
ON CONFLICT (devlog_id, slack_id) DO NOTHING; a missing parent is skipped
with a debug log. -/
def storeCommentState (s : StoreState) (c : RawComment) : StoreState :=
  if c.devlog_id ∈ s.devlogIds then
    if (c.devlog_id, c.slack_id) ∈ s.commentKeys then s
    else { s with commentKeys := s.commentKeys ++ [(c.devlog_id, c.slack_id)] }
  else s

/-- Result wrapper of store_devlog_with_embedding: both the skip path and
the insert path end in Ok(()). -/
def store_devlog_with_embedding (s : StoreState) (d : RawDevlog) :
    Except JobError StoreState :=
  Except.ok (storeDevlogState s d)

/-- Result wrapper of store_comment_with_embedding: both the skip path and
the insert path end in Ok(()). -/
def store_comment_with_embedding (s : StoreState) (c : RawComment) :
    Except JobError StoreState :=
  Except.ok (storeCommentState s c)

/-- C4.  Storing a devlog whose project_id matches no project row, or a
comment whose devlog_id matches no devlog row, leaves the store unchanged
and returns success; in particular the upstream devlog {id 9, project_id
999} is not stored when project 999 is absent. -/
theorem store_orphan_skipped (s : StoreState) (d : RawDevlog) (c : RawComment)
    (hd : d.project_id ∉ s.projectIds)
    (hc : c.devlog_id ∉ s.devlogIds) :
    store_devlog_with_embedding s d = Except.ok s
    ∧ store_comment_with_embedding s c = Except.ok s
    ∧ (storeDevlogState ⟨[1, 2], [], []⟩ ⟨9, 999, "u"⟩).devlogIds = [] := by
  refine ⟨?_, ?_, by decide⟩
  · simp [store_devlog_with_embedding, storeDevlogState, hd]
  · simp [store_comment_with_embedding, storeCommentState, hc]

/-- Witness for C4: devlog {id 9, project_id 999} against a store holding
only projects 1 and 2, and a comment for the absent devlog 7. -/
theorem store_orphan_skipped_witness :
    store_devlog_with_embedding ⟨[1, 2], [], []⟩ ⟨9, 999, "u"⟩ =
        Except.ok ⟨[1, 2], [], []⟩
    ∧ store_comment_with_embedding ⟨[1, 2], [], []⟩ ⟨7, "u"⟩ =
        Except.ok ⟨[1, 2], [], []⟩
    ∧ (storeDevlogState ⟨[1, 2], [], []⟩ ⟨9, 999, "u"⟩).devlogIds = [] :=
  store_orphan_skipped ⟨[1, 2], [], []⟩ ⟨9, 999, "u"⟩ ⟨7, "u"⟩
    (by decide) (by decide)

/-! ## Forge sweep store ordering (forge/mod.rs store_with_parallel_embeddings
lines 180-191: projects drain first, then comments, then devlogs) -/

/-- Sequential composition of the three per-type store phases of
ForgeJob::store_with_parallel_embeddings.  Each phase drains all its
futures before the next phase starts; concurrency within a phase is
modelled as a fold, which is adequate because every comment existence
check reads only the logs table, which no comment write touches. -/
def store_with_parallel_embeddings (s : StoreState)
    (projects : List RawProject) (comments : List RawComment)
    (devlogs : List RawDevlog) : StoreState :=
  let s1 := projects.foldl storeProjectState s
  let s2 := comments.foldl storeCommentState s1
  devlogs.foldl storeDevlogState s2

theorem foldl_storeProject_devlogIds (projects : List RawProject) (s : StoreState) :
    (projects.foldl storeProjectState s).devlogIds = s.devlogIds := by
  induction projects generalizing s with
  | nil => rfl
  | cons p ps ih =>
    rw [List.foldl_cons, ih]
    simp only [storeProjectState]
    split <;> rfl

theorem foldl_storeProject_commentKeys (projects : List RawProject)
    (s : StoreState) :
    (projects.foldl storeProjectState s).commentKeys = s.commentKeys := by
  induction projects generalizing s with
  | nil => rfl
  | cons p ps ih =>
    rw [List.foldl_cons, ih]
    simp only [storeProjectState]
    split <;> rfl

theorem storeComment_devlogIds (s : StoreState) (c : RawComment) :
    (storeCommentState s c).devlogIds = s.devlogIds := by
  simp only [storeCommentState]
  split
  · split <;> rfl
  · rfl

theorem foldl_storeDevlog_commentKeys (devlogs : List RawDevlog) (s : StoreState) :
    (devlogs.foldl storeDevlogState s).commentKeys = s.commentKeys := by
  induction devlogs generalizing s with
  | nil => rfl
  | cons d ds ih =>
    rw [List.foldl_cons, ih]
    simp only [storeDevlogState]
    split
    · split <;> rfl
    · rfl

theorem foldl_storeComment_notStored (comments : List RawComment) (s : StoreState)
    (c : RawComment) (hd : c.devlog_id ∉ s.devlogIds)
    (hk : (c.devlog_id, c.slack_id) ∉ s.commentKeys) :
    (c.devlog_id, c.slack_id) ∉
      (comments.foldl storeCommentState s).commentKeys := by
  induction comments generalizing s with
  | nil => exact hk
  | cons x xs ih =>
    rw [List.foldl_cons]
    refine ih (storeCommentState s x)
      (by rw [storeComment_devlogIds]; exact hd) ?_
    simp only [storeCommentState]
    split
    · split
      · exact hk
      · rename_i hdl _
        intro hmem
        rcases List.mem_append.mp hmem with h | h
        · exact hk h
        · have hx : x.devlog_id = c.devlog_id :=
            (congrArg Prod.fst (List.mem_singleton.mp h)).symm
          exact hd (hx ▸ hdl)
    · exact hk

theorem foldl_storeDevlog_mono (devlogs : List RawDevlog) (s : StoreState)
    (i : Int) (h : i ∈ s.devlogIds) :
    i ∈ (devlogs.foldl storeDevlogState s).devlogIds := by
  induction devlogs generalizing s with
  | nil => exact h
  | cons d ds ih =>
    rw [List.foldl_cons]
    refine ih _ ?_
    simp only [storeDevlogState]
    split
    · split
      · exact h
      · exact List.mem_append_left _ h
    · exact h

theorem foldl_storeProject_projectIds_mono (projects : List RawProject)
    (s : StoreState) (i : Int) (h : i ∈ s.projectIds) :
    i ∈ (projects.foldl storeProjectState s).projectIds := by
  induction projects generalizing s with
  | nil => exact h
  | cons p ps ih =>
    rw [List.foldl_cons]
    refine ih _ ?_
    simp only [storeProjectState]
    split
    · exact h
    · exact List.mem_append_left _ h

theorem foldl_storeComment_projectIds (comments : List RawComment)
    (s : StoreState) :
    (comments.foldl storeCommentState s).projectIds = s.projectIds := by
  induction comments generalizing s with
  | nil => rfl
  | cons c cs ih =>
    rw [List.foldl_cons, ih]
    simp only [storeCommentState]
    split
    · split <;> rfl
    · rfl

theorem foldl_storeDevlog_stores (devlogs : List RawDevlog) (s : StoreState)
    (d : RawDevlog) (hmem : d ∈ devlogs)
    (hp : d.project_id ∈ s.projectIds) :
    d.id ∈ (devlogs.foldl storeDevlogState s).devlogIds := by
  induction devlogs generalizing s with
  | nil => cases hmem
  | cons x xs ih =>
    rw [List.foldl_cons]
    rcases List.mem_cons.mp hmem with rfl | hmem
    · refine foldl_storeDevlog_mono xs _ d.id ?_
      simp only [storeDevlogState, hp, if_true]
      split
      · assumption
      · exact List.mem_append_right _ (List.mem_singleton.mpr rfl)
    · refine ih _ hmem ?_
      simp only [storeDevlogState]
      split
      · split <;> exact hp
      · exact hp

/-! ## Paged fetch with bounded concurrency and cursor advance
(forge/fetch.rs fetch_with_concurrency lines 79-111, fetch_new_comments /
fetch_new_devlogs, and forge/mod.rs execute lines 231-244) -/

/-- Loop body of fetch_with_concurrency's result drain: a successful page
extends the item list and raises current_page to the max of itself and the
page; a failed page is logged and skipped, leaving the accumulator
untouched. -/
def fwcStep {α : Type} (fetchPage : Int → Except JobError (List α))
    (acc : List α × Int) (page : Int) : List α × Int :=
  match fetchPage page with
  | Except.ok items => (acc.1 ++ items, max acc.2 page)
  | Except.error _ => acc

/-- Result drain of fetch_with_concurrency: completion is the order in
which the page futures finish (some permutation of the requested range);
current_page starts at the start_page argument. -/
def fetch_with_concurrency {α : Type} (fetchPage : Int → Except JobError (List α))
    (completion : List Int) (start_page : Int) : List α × Int :=
  completion.foldl (fwcStep fetchPage) ([], start_page)

/-- Page fetch of fetch_new_comments / fetch_new_devlogs (and, modulo the
existing-id filter, fetch_new_projects): start at last_page + 1 (or 1);
an empty first page returns start - 1; a single page returns start;
otherwise the concurrent drain of the remaining pages runs and the
returned page is its current_page capped below by start. -/
def fetch_new_stream {α : Type} (fetchPage : Int → Except JobError (List α))
    (pageCount : Option Int) (last_page : Option Int) (completion : List Int) :
    Except JobError (List α × Int) :=
  let start := match last_page with | some p => p + 1 | none => 1
  match fetchPage start with
  | Except.error e => Except.error e
  | Except.ok first =>
    if first.isEmpty then Except.ok ([], start - 1)
    else
      let total := pageCount.getD start
      if total ≤ start then Except.ok (first, start)
      else
        let r := fetch_with_concurrency fetchPage completion (start + 1)
        Except.ok (first ++ r.1, max r.2 start)

/-- Cursor write at the end of ForgeJob::execute: sync_metadata for the
stream is set to the fetched last page only when some stream produced new
records and that page is positive; otherwise the stored cursor is left as
it was. -/
def update_cursor (old : Option Int) (fetched_last : Int) (store_ran : Bool) :
    Option Int :=
  if store_ran && decide (0 < fetched_last) then some fetched_last else old

theorem fwcStep_snd_le {α : Type} (f : Int → Except JobError (List α))
    (acc : List α × Int) (page : Int) : acc.2 ≤ (fwcStep f acc page).2 := by
  cases hf : f page <;> simp [fwcStep, hf, le_max_left]

theorem fwc_foldl_snd_le {α : Type} (f : Int → Except JobError (List α))
    (completion : List Int) :
    ∀ acc : List α × Int, acc.2 ≤ (completion.foldl (fwcStep f) acc).2 := by
  induction completion with
  | nil => intro acc; exact le_refl _
  | cons p ps ih =>
    intro acc
    exact le_trans (fwcStep_snd_le f acc p) (ih (fwcStep f acc p))

theorem fwc_foldl_snd_cases {α : Type} (f : Int → Except JobError (List α))
    (completion : List Int) :
    ∀ acc : List α × Int,
      (completion.foldl (fwcStep f) acc).2 = acc.2
      ∨ ((completion.foldl (fwcStep f) acc).2 ∈ completion
          ∧ ∃ items, f ((completion.foldl (fwcStep f) acc).2) = Except.ok items) := by
  induction completion with
  | nil => intro acc; exact Or.inl rfl
  | cons p ps ih =>
    intro acc
    rw [List.foldl_cons]
    rcases ih (fwcStep f acc p) with heq | ⟨hm, hok⟩
    · rw [heq]
      cases hf : f p with
      | error e => simp only [fwcStep, hf]; exact Or.inl trivial
      | ok items =>
        simp only [fwcStep, hf]
        rcases max_choice acc.2 p with hmax | hmax
        · rw [hmax]; exact Or.inl rfl
        · rw [hmax]
          exact Or.inr ⟨List.mem_cons_self p ps, items, hf⟩
    · exact Or.inr ⟨List.mem_cons_of_mem p hm, hok⟩

theorem fwc_drained_le {α : Type} (f : Int → Except JobError (List α))
    (completion : List Int) :
    ∀ (acc : List α × Int) (p : Int), p ∈ completion →
      (∃ items, f p = Except.ok items) →
      p ≤ (completion.foldl (fwcStep f) acc).2 := by
  induction completion with
  | nil => intro acc p hp; cases hp
  | cons q qs ih =>
    intro acc p hp hok
    rw [List.foldl_cons]
    rcases List.mem_cons.mp hp with rfl | hp
    · refine le_trans ?_ (fwc_foldl_snd_le f qs (fwcStep f acc p))
      rcases hok with ⟨items, hf⟩
      simp [fwcStep, hf, le_max_right]
    · exact ih (fwcStep f acc q) p hp hok

theorem fetch_new_stream_snd_ge {α : Type} (f : Int → Except JobError (List α))
    (pc : Option Int) (o : Int) (completion : List Int) (res : List α × Int)
    (h : fetch_new_stream f pc (some o) completion = Except.ok res) :
    o ≤ res.2 := by
  simp only [fetch_new_stream] at h
  split at h
  · simp at h
  · split at h
    · injection h with h2
      subst h2
      have hle : o ≤ o + 1 - 1 := by omega
      exact hle
    · split at h
      · injection h with h2
        subst h2
        have hle : o ≤ o + 1 := by omega
        exact hle
      · injection h with h2
        subst h2
        have hle : o ≤ o + 1 := by omega
        exact le_trans hle (le_max_right _ _)

/-- C6 counterexample: pages 3 and 4 are requested, page 3 fails and page
4 drains; the returned current_page is 4, so the cursor is advanced past
the failed page 3 and its records are never refetched. -/
theorem cursor_passes_failed_page :
    (fun p => if p = 4 then Except.ok [42] else
        Except.error (JobError.ExternalApi "boom") : Int → Except JobError (List Int)) 3
      = Except.error (JobError.ExternalApi "boom")
    ∧ (fetch_with_concurrency
        (fun p => if p = 4 then Except.ok [42] else
          Except.error (JobError.ExternalApi "boom")) [3, 4] 3).2 = 4 := by
  exact ⟨rfl, rfl⟩

/-- C6 amended.  The cursor value returned by a sweep is either the
start page or a page that was actually drained, every drained page lies at
or below it, and across successive successful sweeps the stored last_page
never decreases; however a failed page below the maximum drained page is
skipped past rather than blocking the advance. -/
theorem cursor_monotone_and_drained {α : Type}
    (f : Int → Except JobError (List α)) (completion : List Int)
    (start_page o : Int) (pc : Option Int) (store_ran : Bool) :
    ((fetch_with_concurrency f completion start_page).2 = start_page
      ∨ ((fetch_with_concurrency f completion start_page).2 ∈ completion
          ∧ ∃ items,
              f ((fetch_with_concurrency f completion start_page).2) =
                Except.ok items))
    ∧ (∀ p ∈ completion, (∃ items, f p = Except.ok items) →
        p ≤ (fetch_with_concurrency f completion start_page).2)
    ∧ (∀ res, fetch_new_stream f pc (some o) completion = Except.ok res →
        ∃ n, update_cursor (some o) res.2 store_ran = some n ∧ o ≤ n) := by
  refine ⟨fwc_foldl_snd_cases f completion ([], start_page),
    fun p hp hok => fwc_drained_le f completion ([], start_page) p hp hok,
    fun res hres => ?_⟩
  have hge := fetch_new_stream_snd_ge f pc o completion res hres
  simp only [update_cursor]
  by_cases hcond : store_ran && decide (0 < res.2)
  · rw [if_pos hcond]
    exact ⟨res.2, rfl, hge⟩
  · rw [if_neg hcond]
    exact ⟨o, rfl, le_refl o⟩

/-- Witness for C6: a two-page drain where both pages succeed, applied at
page 4, and a concrete successful sweep from cursor 2. -/
theorem cursor_monotone_and_drained_witness :
    ((4 : Int) ∈ [(3 : Int), 4] ∧
      ∃ items, (fun _ => Except.ok [(0 : Int)] :
        Int → Except JobError (List Int)) 4 = Except.ok items)
    ∧ 4 ≤ (fetch_with_concurrency
        (fun _ => Except.ok [(0 : Int)]) [3, 4] 3).2 := by
  refine ⟨⟨by decide, [0], rfl⟩, ?_⟩
  exact (cursor_monotone_and_drained (fun _ => Except.ok [(0 : Int)])
    [3, 4] 3 2 none true).2.1 4 (by decide) ⟨[0], rfl⟩

/-- C10.  Projects are stored first, then comments, then devlogs; hence a
comment whose parent devlog only arrives in the same sweep fails the
existence check against the logs table and is skipped (even though the
devlog itself is stored), while every drained comments page still lies at
or below the cursor value the sweep writes back. -/
theorem comment_skipped_when_devlog_same_sweep (s : StoreState)
    (projects : List RawProject) (comments : List RawComment)
    (devlogs : List RawDevlog) (c : RawComment) (d : RawDevlog)
    (_hc : c ∈ comments) (hnew : c.devlog_id ∉ s.devlogIds)
    (hk : (c.devlog_id, c.slack_id) ∉ s.commentKeys)
    (hd : d ∈ devlogs) (_hdc : d.id = c.devlog_id)
    (hp : d.project_id ∈ s.projectIds) :
    (c.devlog_id, c.slack_id) ∉
      (store_with_parallel_embeddings s projects comments devlogs).commentKeys
    ∧ d.id ∈ (store_with_parallel_embeddings s projects comments devlogs).devlogIds
    ∧ (∀ (f : Int → Except JobError (List RawComment)) (completion : List Int)
        (start_page : Int) (p : Int), p ∈ completion →
        (∃ items, f p = Except.ok items) →
        p ≤ (fetch_with_concurrency f completion start_page).2) := by
  refine ⟨?_, ?_, fun f completion start_page p hp' hok =>
    fwc_drained_le f completion ([], start_page) p hp' hok⟩
  · simp only [store_with_parallel_embeddings]
    rw [foldl_storeDevlog_commentKeys]
    refine foldl_storeComment_notStored comments _ c ?_ ?_
    · rw [foldl_storeProject_devlogIds]; exact hnew
    · rw [foldl_storeProject_commentKeys]; exact hk
  · simp only [store_with_parallel_embeddings]
    refine foldl_storeDevlog_stores devlogs _ d hd ?_
    rw [foldl_storeComment_projectIds]
    exact foldl_storeProject_projectIds_mono projects s d.project_id hp

/-- Witness for C10: one new comment for devlog 5 and the devlog 5 record
itself arriving in the same sweep over a store that already has project 1;
the devlog lands, the comment does not, and a drained page 4 stays at or
below the returned cursor. -/
theorem comment_skipped_when_devlog_same_sweep_witness :
    ((5, "u") ∉
      (store_with_parallel_embeddings ⟨[1], [], []⟩ [] [⟨5, "u"⟩]
        [⟨5, 1, "v"⟩]).commentKeys)
    ∧ (5 : Int) ∈
      (store_with_parallel_embeddings ⟨[1], [], []⟩ [] [⟨5, "u"⟩]
        [⟨5, 1, "v"⟩]).devlogIds
    ∧ 4 ≤ (fetch_with_concurrency
        (fun _ => Except.ok [(⟨5, "u"⟩ : RawComment)]) [4] 3).2 := by
  have h := comment_skipped_when_devlog_same_sweep ⟨[1], [], []⟩ [] [⟨5, "u"⟩]
    [⟨5, 1, "v"⟩] ⟨5, "u"⟩ ⟨5, 1, "v"⟩ (by decide) (by decide) (by decide)
    (by decide) rfl (by decide)
  exact ⟨h.1, h.2.1,
    h.2.2 (fun _ => Except.ok [⟨5, "u"⟩]) [4] 3 4 (by decide) ⟨[⟨5, "u"⟩], rfl⟩⟩

/-! ## HTTP retry loop (common/src/services/external.rs fetch_with_retry
lines 110-175) -/

/-- Outcome of one HTTP send inside fetch_with_retry: either a response
(optional parsed Retry-After header in seconds, status code, whether a 403
body contains the block sentinel, whether the success body parses) or a
transport error (retriable records is_timeout() || is_connect()). -/
inductive HttpOutcome where
  | response (retry_after : Option Nat) (status : Nat) (sentinel : Bool)
      (parses : Bool)
  | netErr (retriable : Bool)
deriving Repr, DecidableEq

/-- Error classification produced by fetch_with_retry. -/
inductive FetchErr where
  | blocked
  | authExpired
  | http
  | parse
  | transport
deriving Repr, DecidableEq

/-- Observable end state of fetch_with_retry: Ok, Err, or the panic at the
trailing unreachable!() when the for loop over attempts 1..=5 completes
without returning. -/
inductive FetchResult where
  | ok
  | err (e : FetchErr)
  | panic
deriving Repr, DecidableEq

/-- Body of the for attempt in 1..=5 loop of fetch_with_retry, indexed by
the attempts remaining (the loop falls through to unreachable!() when they
run out) together with the 1-based attempt number the source compares
against 5.  A response carrying Retry-After sleeps that many seconds and
continues, which also advances the loop counter; 403 is terminal
(blocked or auth-expired); 429 and 5xx retry with doubling backoff capped
at 30000 ms while attempt < 5; a retriable transport error does the same;
everything else returns.  The returned list records every sleep in
milliseconds. -/
def fetchAttempts (outcomes : Nat → HttpOutcome) :
    Nat → Nat → Nat → List Nat → FetchResult × List Nat
  | 0, _, _, sleeps => (FetchResult.panic, sleeps)
  | remaining + 1, attempt, backoff_ms, sleeps =>
    match outcomes attempt with
    | HttpOutcome.response (some ra) _ _ _ =>
      fetchAttempts outcomes remaining (attempt + 1) backoff_ms
        (sleeps ++ [ra * 1000])
    | HttpOutcome.response none status sentinel parses =>
      if 200 ≤ status ∧ status ≤ 299 then
        if parses then (FetchResult.ok, sleeps)
        else (FetchResult.err FetchErr.parse, sleeps)
      else if status = 403 ∧ sentinel then (FetchResult.err FetchErr.blocked, sleeps)
      else if status = 403 then (FetchResult.err FetchErr.authExpired, sleeps)
      else if (status = 429 ∨ (500 ≤ status ∧ status ≤ 599)) ∧ attempt < 5 then
        fetchAttempts outcomes remaining (attempt + 1)
          (min (backoff_ms * 2) 30000) (sleeps ++ [backoff_ms])
      else (FetchResult.err FetchErr.http, sleeps)
    | HttpOutcome.netErr retriable =>
      if attempt < 5 ∧ retriable then
        fetchAttempts outcomes remaining (attempt + 1)
          (min (backoff_ms * 2) 30000) (sleeps ++ [backoff_ms])
      else (FetchResult.err FetchErr.transport, sleeps)

/-- Entry point of fetch_with_retry: 5 loop iterations, attempt counter
starting at 1, backoff starting at 1000 ms, no sleeps yet. -/
def fetch_with_retry (outcomes : Nat → HttpOutcome) : FetchResult × List Nat :=
  fetchAttempts outcomes 5 1 1000 []

/-- C2.  A Retry-After response makes the client sleep the advertised
duration and retry, but the continue sits inside for attempt in 1..=5, so
the wait does consume one of the 5 attempts: after Retry-After: 2 on
attempt 1 and HTTP 500 on every later attempt, only three backoff retries
remain (sleeps 2000, 1000, 2000, 4000 ms) and the call fails at attempt 5,
one retry earlier than a non-counting budget would allow. -/
theorem retry_after_consumes_attempt :
    fetch_with_retry (fun attempt =>
        if attempt = 1 then HttpOutcome.response (some 2) 429 false true
        else HttpOutcome.response none 500 false true) =
      (FetchResult.err FetchErr.http, [2000, 1000, 2000, 4000]) := by
  decide

/-- C9.  The unreachable!() after the loop is live code: when all 5
attempts end in a response carrying a Retry-After header, every iteration
takes the continue path and the loop completes, falling through to the
panic. -/
theorem retry_loop_falls_through :
    fetch_with_retry (fun _ => HttpOutcome.response (some 2) 429 false true) =
      (FetchResult.panic, [2000, 2000, 2000, 2000, 2000]) := by
  decide

/-! ## Trace user selection (trace/update.rs find_users_needing_info lines
8-29 and trace/mod.rs execute lines 37-41) -/

/-- Row of the users table as the trace selection reads it. -/
structure UserRow where
  slack_id : String
  username : Option String
  pfp_url : String
  trust_level : Option String
  last_synced : Option Nat
deriving Repr, DecidableEq

/-- WHERE clause of find_users_needing_info: username IS NULL OR pfp_url =
notfound OR trust_level = unavailable (a NULL trust_level does not match
the equality). -/
def needsInfo (u : UserRow) : Bool :=
  u.username.isNone || (u.pfp_url == "notfound")
    || (u.trust_level == some "unavailable")

/-- Ascending comparison on the nullable last_synced column with the
Postgres ASC default of NULLS LAST. -/
def lsLeNullsLast : Option Nat → Option Nat → Bool
  | some a, some b => decide (a ≤ b)
  | some _, none => true
  | none, some _ => false
  | none, none => true

/-- Lexicographic codepoint comparison of character lists, modelling the
ORDER BY collation on the slack_id text column. -/
def charListLe : List Char → List Char → Bool
  | [], _ => true
  | _ :: _, [] => false
  | a :: as, b :: bs => if a = b then charListLe as bs else decide (a < b)

/-- Comparison on slack ids through their character data. -/
def slackLe (a b : String) : Bool := charListLe a.data b.data

/-- Sort key of the query: ORDER BY slack_id, last_synced ASC, the
leading slack_id being forced by DISTINCT ON (slack_id). -/
def rowLeB (u v : UserRow) : Bool :=
  if u.slack_id = v.slack_id then lsLeNullsLast u.last_synced v.last_synced
  else slackLe u.slack_id v.slack_id

/-- Propositional form of rowLeB for List.insertionSort. -/
def rowRel (u v : UserRow) : Prop := rowLeB u v = true

instance : DecidableRel rowRel := fun u v => instDecidableEqBool (rowLeB u v) true

/-- DISTINCT ON (slack_id): keep the first row of each slack_id in the
sorted order. -/
def dedupByKey : List String → List UserRow → List UserRow
  | _, [] => []
  | seen, u :: us =>
    if u.slack_id ∈ seen then dedupByKey seen us
    else u :: dedupByKey (u.slack_id :: seen) us

/-- Selection of UserUpdater::find_users_needing_info: filter by the WHERE
clause, sort by (slack_id, last_synced ASC), keep the first row per
slack_id, LIMIT 100, project slack_id. -/
def find_users_needing_info (users : List UserRow) : List String :=
  ((dedupByKey [] (List.insertionSort rowRel (users.filter needsInfo))).take
    100).map (fun u => u.slack_id)

/-- Ascending comparison on last_synced with NULLS FIRST, as the spec
words the ordering. -/
def lsLeNullsFirst : Option Nat → Option Nat → Bool
  | none, _ => true
  | some _, none => false
  | some a, some b => decide (a ≤ b)

/-- Spec-side ordering relation: last_synced ASC NULLS FIRST. -/
def specLsRel (u v : UserRow) : Prop :=
  lsLeNullsFirst u.last_synced v.last_synced = true

instance : DecidableRel specLsRel :=
  fun u v => instDecidableEqBool (lsLeNullsFirst u.last_synced v.last_synced) true

/-- Selection as the spec words it (ordered by last_synced ASC NULLS
FIRST), for comparison with the query the source issues. -/
def find_users_needing_info_by_last_synced (users : List UserRow) : List String :=
  ((dedupByKey [] (List.insertionSort specLsRel (users.filter needsInfo))).take
    100).map (fun u => u.slack_id)

/-- User A: eligible via pfp_url, synced at time 5. -/
def traceUserA : UserRow := ⟨"A", some "alice", "notfound", none, some 5⟩

/-- User B: eligible via pfp_url, never synced (NULL last_synced). -/
def traceUserB : UserRow := ⟨"B", some "bob", "notfound", none, none⟩

/-- C7 counterexample: the query orders by slack_id (the DISTINCT ON
leading column), not by last_synced ASC NULLS FIRST; with user A synced at
5 and never-synced user B, the source returns A first while the claimed
ordering would return B first. -/
theorem trace_selection_order_differs :
    find_users_needing_info [traceUserA, traceUserB] = ["A", "B"]
    ∧ find_users_needing_info_by_last_synced [traceUserA, traceUserB] = ["B", "A"]
    ∧ find_users_needing_info [traceUserA, traceUserB] ≠
        find_users_needing_info_by_last_synced [traceUserA, traceUserB] := by
  refine ⟨?_, ?_, ?_⟩ <;> decide

/-- Outcome of TraceJob::execute as far as the selection decides it: an
empty selection returns the control signal Other("no_work"); otherwise the
per-user enrichment proceeds. -/
def trace_execute_outcome (users : List UserRow) : Except JobError Unit :=
  if (find_users_needing_info users).isEmpty then
    Except.error (JobError.Other "no_work")
  else Except.ok ()

theorem charListLe_total : ∀ a b : List Char,
    charListLe a b = true ∨ charListLe b a = true := by
  intro a
  induction a with
  | nil => intro b; exact Or.inl rfl
  | cons x xs ih =>
    intro b
    cases b with
    | nil => exact Or.inr rfl
    | cons y ys =>
      by_cases hxy : x = y
      · subst hxy
        simpa [charListLe] using ih ys
      · rcases lt_or_gt_of_ne hxy with h | h
        · left; simp [charListLe, hxy, h]
        · right; simp [charListLe, Ne.symm hxy, h]

theorem charListLe_trans : ∀ a b c : List Char, charListLe a b = true →
    charListLe b c = true → charListLe a c = true := by
  intro a
  induction a with
  | nil => intro b c _ _; rfl
  | cons x xs ih =>
    intro b c hab hbc
    cases b with
    | nil => simp [charListLe] at hab
    | cons y ys =>
      cases c with
      | nil => simp [charListLe] at hbc
      | cons z zs =>
        simp only [charListLe] at hab hbc ⊢
        by_cases hxy : x = y
        · subst hxy
          rw [if_pos rfl] at hab
          by_cases hxz : x = z
          · subst hxz
            rw [if_pos rfl] at hbc ⊢
            exact ih ys zs hab hbc
          · rw [if_neg hxz] at hbc ⊢
            exact hbc
        · rw [if_neg hxy] at hab
          have hxylt : x < y := of_decide_eq_true hab
          by_cases hyz : y = z
          · have hxzlt : x < z := hyz ▸ hxylt
            rw [if_neg (ne_of_lt hxzlt)]
            exact decide_eq_true hxzlt
          · rw [if_neg hyz] at hbc
            have hyzlt : y < z := of_decide_eq_true hbc
            have hxz : x < z := lt_trans hxylt hyzlt
            rw [if_neg (ne_of_lt hxz)]
            exact decide_eq_true hxz

theorem charListLe_antisymm : ∀ a b : List Char, charListLe a b = true →
    charListLe b a = true → a = b := by
  intro a
  induction a with
  | nil =>
    intro b hab hba
    cases b with
    | nil => rfl
    | cons y ys => simp [charListLe] at hba
  | cons x xs ih =>
    intro b hab hba
    cases b with
    | nil => simp [charListLe] at hab
    | cons y ys =>
      simp only [charListLe] at hab hba
      by_cases hxy : x = y
      · subst hxy
        rw [if_pos rfl] at hab hba
        rw [ih ys hab hba]
      · rw [if_neg hxy] at hab
        rw [if_neg (Ne.symm hxy)] at hba
        exact absurd (of_decide_eq_true hba)
          (lt_asymm (of_decide_eq_true hab))

theorem lsLeNullsLast_total : ∀ a b : Option Nat,
    lsLeNullsLast a b = true ∨ lsLeNullsLast b a = true := by
  intro a b
  cases a <;> cases b <;> simp [lsLeNullsLast] <;> omega

theorem lsLeNullsLast_trans : ∀ a b c : Option Nat, lsLeNullsLast a b = true →
    lsLeNullsLast b c = true → lsLeNullsLast a c = true := by
  intro a b c
  cases a <;> cases b <;> cases c <;> simp [lsLeNullsLast] <;> omega

theorem string_data_eq {a b : String} (h : a.data = b.data) : a = b := by
  cases a; cases b; exact congrArg String.mk h

theorem rowRel_total : ∀ u v : UserRow, rowRel u v ∨ rowRel v u := by
  intro u v
  unfold rowRel rowLeB
  by_cases h : u.slack_id = v.slack_id
  · rw [if_pos h, if_pos h.symm]
    exact lsLeNullsLast_total _ _
  · rw [if_neg h, if_neg (Ne.symm h)]
    exact charListLe_total _ _

theorem rowRel_trans : ∀ u v w : UserRow, rowRel u v → rowRel v w →
    rowRel u w := by
  intro u v w huv hvw
  unfold rowRel rowLeB at huv hvw ⊢
  by_cases h1 : u.slack_id = v.slack_id
  · rw [if_pos h1] at huv
    by_cases h2 : v.slack_id = w.slack_id
    · rw [if_pos h2] at hvw
      rw [if_pos (h1.trans h2)]
      exact lsLeNullsLast_trans _ _ _ huv hvw
    · rw [if_neg h2] at hvw
      rw [if_neg (h1 ▸ h2)]
      unfold slackLe at hvw ⊢
      rw [congrArg String.data h1]
      exact hvw
  · rw [if_neg h1] at huv
    by_cases h2 : v.slack_id = w.slack_id
    · rw [if_pos h2] at hvw
      rw [if_neg (fun he => h1 (he.trans h2.symm))]
      unfold slackLe at huv ⊢
      rw [← congrArg String.data h2]
      exact huv
    · rw [if_neg h2] at hvw
      unfold slackLe at huv hvw
      by_cases h3 : u.slack_id = w.slack_id
      · exfalso
        have hwu : w.slack_id.data = u.slack_id.data := congrArg String.data h3.symm
        have hvu : charListLe v.slack_id.data u.slack_id.data = true := hwu ▸ hvw
        exact h1 (string_data_eq (charListLe_antisymm _ _ huv hvu))
      · rw [if_neg h3]
        exact charListLe_trans _ _ _ huv hvw

instance : IsTotal UserRow rowRel := ⟨rowRel_total⟩

instance : IsTrans UserRow rowRel := ⟨rowRel_trans⟩

theorem dedupByKey_sublist : ∀ (seen : List String) (l : List UserRow),
    List.Sublist (dedupByKey seen l) l := by
  intro seen l
  induction l generalizing seen with
  | nil => exact List.Sublist.refl []
  | cons u us ih =>
    simp only [dedupByKey]
    split
    · exact (ih seen).trans (List.sublist_cons_self u us)
    · exact List.Sublist.cons₂ u (ih _)

theorem dedupByKey_keys_disjoint : ∀ (l : List UserRow) (seen : List String)
    (u : UserRow), u ∈ dedupByKey seen l → u.slack_id ∉ seen := by
  intro l
  induction l with
  | nil => intro seen u hu; cases hu
  | cons x xs ih =>
    intro seen u hu
    simp only [dedupByKey] at hu
    split at hu
    · exact ih seen u hu
    · rcases List.mem_cons.mp hu with rfl | hu
      · assumption
      · intro hmem
        exact ih _ u hu (List.mem_cons_of_mem _ hmem)

theorem dedupByKey_keys_nodup : ∀ (l : List UserRow) (seen : List String),
    ((dedupByKey seen l).map (fun u => u.slack_id)).Nodup := by
  intro l
  induction l with
  | nil => intro seen; simp [dedupByKey]
  | cons u us ih =>
    intro seen
    simp only [dedupByKey]
    split
    · exact ih seen
    · rw [List.map_cons, List.nodup_cons]
      refine ⟨fun hmem => ?_, ih _⟩
      rcases List.mem_map.mp hmem with ⟨v, hv, hveq⟩
      exact dedupByKey_keys_disjoint us _ v hv
        (hveq ▸ List.mem_cons_self _ _)


theorem rowRel_proj (u v : UserRow) (h : rowRel u v) :
    u.slack_id = v.slack_id ∨ slackLe u.slack_id v.slack_id = true := by
  unfold rowRel rowLeB at h
  by_cases he : u.slack_id = v.slack_id
  · exact Or.inl he
  · rw [if_neg he] at h
    exact Or.inr h

theorem find_users_nil_iff (users : List UserRow) :
    find_users_needing_info users = [] ↔ ∀ u ∈ users, needsInfo u = false := by
  constructor
  · intro h u hu
    by_contra hni
    have hni' : needsInfo u = true := by
      revert hni; cases needsInfo u <;> simp
    have humem : u ∈ users.filter needsInfo := List.mem_filter.mpr ⟨hu, hni'⟩
    have hsort : u ∈ List.insertionSort rowRel (users.filter needsInfo) :=
      (List.mem_insertionSort rowRel).mpr humem
    have h1 := List.map_eq_nil_iff.mp h
    rcases List.take_eq_nil_iff.mp h1 with h2 | h2
    · exact absurd h2 (by decide)
    · cases hs : List.insertionSort rowRel (users.filter needsInfo) with
      | nil => rw [hs] at hsort; cases hsort
      | cons x xs =>
        rw [hs] at h2
        simp [dedupByKey] at h2
  · intro h
    have hf : users.filter needsInfo = [] :=
      List.filter_eq_nil_iff.mpr fun a ha => by rw [h a ha]; exact Bool.false_ne_true
    simp [find_users_needing_info, hf, List.insertionSort, dedupByKey]

/-- C7 amended.  The trace sweep selects at most 100 users, pairwise
distinct on slack_id, each satisfying username IS NULL OR pfp_url =
notfound OR trust_level = unavailable, and returns Other("no_work")
exactly when no user satisfies the predicate; but the selection is ordered
by slack_id (the DISTINCT ON leading column, with last_synced ASC NULLS
LAST only as a tiebreaker), not by last_synced ASC NULLS FIRST. -/
theorem trace_selection (users : List UserRow) :
    (find_users_needing_info users).length ≤ 100
    ∧ (find_users_needing_info users).Nodup
    ∧ (∀ sid ∈ find_users_needing_info users,
        ∃ u ∈ users, needsInfo u = true ∧ u.slack_id = sid)
    ∧ List.Pairwise (fun a b => slackLe a b = true)
        (find_users_needing_info users)
    ∧ (trace_execute_outcome users = Except.error (JobError.Other "no_work") ↔
        ∀ u ∈ users, needsInfo u = false) := by
  have hkeys := dedupByKey_keys_nodup
    (List.insertionSort rowRel (users.filter needsInfo)) []
  have hnodup : (find_users_needing_info users).Nodup := by
    rw [find_users_needing_info, List.map_take]
    exact List.Nodup.sublist (List.take_sublist _ _) hkeys
  refine ⟨?_, hnodup, ?_, ?_, ?_⟩
  · rw [find_users_needing_info, List.length_map]
    exact List.length_take_le _ _
  · intro sid hsid
    rw [find_users_needing_info] at hsid
    rcases List.mem_map.mp hsid with ⟨u, hu, hueq⟩
    have h1 : u ∈ dedupByKey []
        (List.insertionSort rowRel (users.filter needsInfo)) :=
      List.take_subset _ _ hu
    have h2 : u ∈ List.insertionSort rowRel (users.filter needsInfo) :=
      (dedupByKey_sublist _ _).subset h1
    have h3 := List.mem_filter.mp ((List.mem_insertionSort rowRel).mp h2)
    exact ⟨u, h3.1, h3.2, hueq⟩
  · have hsorted : List.Pairwise rowRel
        (List.insertionSort rowRel (users.filter needsInfo)) :=
      List.sorted_insertionSort rowRel _
    have hded := List.Pairwise.sublist
      (dedupByKey_sublist [] (List.insertionSort rowRel (users.filter needsInfo)))
      hsorted
    have htake := List.Pairwise.sublist (List.take_sublist 100 _) hded
    have hmapped : List.Pairwise
        (fun a b : String => a = b ∨ slackLe a b = true)
        (find_users_needing_info users) :=
      List.Pairwise.map _ (fun u v huv => rowRel_proj u v huv) htake
    have hcomb := List.Pairwise.and hmapped hnodup
    exact hcomb.imp fun hab => hab.1.resolve_left hab.2
  · rw [trace_execute_outcome]
    constructor
    · intro h
      by_cases he : (find_users_needing_info users).isEmpty
      · exact (find_users_nil_iff users).mp (List.isEmpty_iff.mp he)
      · rw [if_neg he] at h
        cases h
    · intro h
      rw [if_pos (List.isEmpty_iff.mpr ((find_users_nil_iff users).mpr h))]

/-- Witness for C7: the amended selection facts evaluated on the two
concrete eligible users A and B. -/
theorem trace_selection_witness :
    "A" ∈ find_users_needing_info [traceUserA, traceUserB]
    ∧ ∃ u ∈ [traceUserA, traceUserB], needsInfo u = true ∧ u.slack_id = "A" :=
  ⟨by decide,
    (trace_selection [traceUserA, traceUserB]).2.2.1 "A" (by decide)⟩

/-! ## Embedding service (common/src/services/embedding.rs).  The f32
arithmetic is idealised over the reals; the neural network is the abstract
hidden-state function the spec treats as a black box, with the MiniLM
hidden size 384 (EMBEDDING_DIM).  The TTL cache between the short-text
check and embed_single_text returns a previously computed value for the
same key and is modelled as transparent. -/

/-- Whitespace trim of Rust str::trim, over character data. -/
def trimChars (l : List Char) : List Char :=
  ((l.dropWhile Char.isWhitespace).reverse.dropWhile Char.isWhitespace).reverse

/-- Trim on strings through their character data. -/
def strTrim (s : String) : String := String.mk (trimChars s.data)

/-- Vec::resize(512, 0) of the window padding: truncate to 512 then pad
with zeros up to 512. -/
def resize512 (l : List Int) : List Int :=
  l.take 512 ++ List.replicate (512 - l.length) 0

/-- Window scan of embed_single_text for inputs longer than 512 tokens:
while pos < len, push (pos, min (pos + 512) len); stop after a window
that reaches len; otherwise step pos by 512 - 64 = 448.  The fuel
argument bounds the iteration count (len suffices since the step is
positive). -/
def collectWindowsAux (len : Nat) : Nat → Nat → List (Nat × Nat)
  | 0, _ => []
  | fuel + 1, pos =>
    if pos < len then
      if len ≤ min (pos + 512) len then [(pos, min (pos + 512) len)]
      else (pos, min (pos + 512) len) :: collectWindowsAux len fuel (pos + 448)
    else []

/-- Windows of the chunking loop for a tokenized length. -/
def collectWindows (len : Nat) : List (Nat × Nat) := collectWindowsAux len len 0

/-- Sum of squares of a vector, as f32 dot(self, self). -/
noncomputable def l2normSq : List ℝ → ℝ
  | [] => 0
  | x :: xs => x * x + l2normSq xs

/-- L2 norm. -/
noncomputable def l2norm (v : List ℝ) : ℝ := Real.sqrt (l2normSq v)

/-- Final normalization step shared by EmbeddingModel::forward and the
chunked average: divide by the norm when it exceeds 1e-6, otherwise
return the vector unchanged. -/
noncomputable def normalizeIfBig (v : List ℝ) : List ℝ :=
  if 1e-6 < l2norm v then v.map (fun x => x / l2norm v) else v

/-- EmbeddingModel::forward: the black-box session run produces hidden
states hidden input_ids attention_mask i j (token i, dimension j, the
MiniLM hidden size being 384); pooling sums each dimension weighted by
the attention mask, divides by the mask total when positive, and
normalizes when the norm exceeds 1e-6. -/
noncomputable def forward (hidden : List Int → List Int → Nat → Nat → ℝ)
    (input_ids attention_mask : List Int) : List ℝ :=
  let h := hidden input_ids attention_mask
  let total_mask : ℝ := (attention_mask.map (fun m => (m : ℝ))).sum
  let pooled0 : List ℝ := (List.range 384).map (fun j =>
    ((List.range attention_mask.length).map
      (fun i => h i j * ((attention_mask.getD i 0 : Int) : ℝ))).sum)
  let pooled := if 0 < total_mask then pooled0.map (fun x => x / total_mask)
    else pooled0
  normalizeIfBig pooled

/-- EmbeddingService::embed_single_text after tokenization: inputs longer
than 512 tokens are chunked into the collectWindows windows, each padded
to 512 in both ids and attention mask, pooled through the model, averaged
component-wise, and the average normalized when its norm exceeds 1e-6;
shorter inputs are padded once and run through forward directly. -/
noncomputable def embed_single_text (hidden : List Int → List Int → Nat → Nat → ℝ)
    (ids mask : List Int) : List ℝ :=
  if 512 < ids.length then
    let ws := collectWindows ids.length
    let embs := ws.map (fun w =>
      forward hidden (resize512 ((ids.drop w.1).take (w.2 - w.1)))
        (resize512 ((mask.drop w.1).take (w.2 - w.1))))
    let averaged := (List.range (embs.headD []).length).map (fun i =>
      (embs.map (fun v => v.getD i 0)).sum / (embs.length : ℝ))
    normalizeIfBig averaged
  else forward hidden (resize512 ids) (resize512 mask)

/-- EmbeddingService::embed_text: empty trimmed text returns 384 zeros;
fewer than 8 tokens (encoding without special tokens, the tok parameter)
returns 384 zeros; otherwise the text is re-encoded with special tokens
(the tokSp parameter) and handed to embed_single_text. -/
noncomputable def embed_text (tok : String → List Int)
    (tokSp : String → List Int × List Int)
    (hidden : List Int → List Int → Nat → Nat → ℝ) (text : String) : List ℝ :=
  if strTrim text = "" then List.replicate 384 0
  else if (tok text).length < 8 then List.replicate 384 0
  else embed_single_text hidden (tokSp text).1 (tokSp text).2

theorem resize512_length (l : List Int) : (resize512 l).length = 512 := by
  simp only [resize512, List.length_append, List.length_take,
    List.length_replicate]
  omega

theorem l2normSq_nonneg (v : List ℝ) : 0 ≤ l2normSq v := by
  induction v with
  | nil => exact le_refl 0
  | cons x xs ih =>
    simp only [l2normSq]
    have := mul_self_nonneg x
    linarith

theorem l2normSq_map_div (v : List ℝ) (c : ℝ) :
    l2normSq (v.map (fun x => x / c)) = l2normSq v / c ^ 2 := by
  induction v with
  | nil => simp [l2normSq]
  | cons x xs ih =>
    simp only [List.map_cons, l2normSq, ih]
    ring

theorem l2normSq_replicate_zero (n : Nat) :
    l2normSq (List.replicate n 0) = 0 := by
  induction n with
  | zero => rfl
  | succ m ih => simp [List.replicate, l2normSq, ih]

theorem l2norm_replicate_zero (n : Nat) : l2norm (List.replicate n 0) = 0 := by
  rw [l2norm, l2normSq_replicate_zero, Real.sqrt_zero]

theorem normalizeIfBig_norm (v : List ℝ) :
    l2norm (normalizeIfBig v) = 1 ∨ l2norm (normalizeIfBig v) ≤ 1e-6 := by
  unfold normalizeIfBig
  by_cases h : (1e-6 : ℝ) < l2norm v
  · rw [if_pos h]
    left
    have hpos : (0 : ℝ) < l2norm v := lt_trans (by norm_num) h
    have hS : 0 < l2normSq v := Real.sqrt_pos.mp hpos
    rw [l2norm, l2normSq_map_div]
    rw [show l2norm v ^ 2 = l2normSq v from Real.sq_sqrt (l2normSq_nonneg v)]
    rw [div_self (ne_of_gt hS), Real.sqrt_one]
  · rw [if_neg h]
    exact Or.inr (le_of_not_lt h)

theorem normalizeIfBig_length (v : List ℝ) :
    (normalizeIfBig v).length = v.length := by
  unfold normalizeIfBig
  split
  · exact List.length_map v _
  · rfl

theorem forward_length (hidden : List Int → List Int → Nat → Nat → ℝ)
    (input_ids attention_mask : List Int) :
    (forward hidden input_ids attention_mask).length = 384 := by
  unfold forward
  rw [normalizeIfBig_length]
  split
  · rw [List.length_map, List.length_map, List.length_range]
  · rw [List.length_map, List.length_range]

theorem collectWindowsAux_snd (len : Nat) : ∀ (fuel pos : Nat),
    ∀ w ∈ collectWindowsAux len fuel pos, w.2 = min (w.1 + 512) len := by
  intro fuel
  induction fuel with
  | zero => intro pos w hw; cases hw
  | succ f ih =>
    intro pos w hw
    simp only [collectWindowsAux] at hw
    split at hw
    · split at hw
      · rcases List.mem_singleton.mp hw with rfl
        rfl
      · rcases List.mem_cons.mp hw with rfl | hw
        · rfl
        · exact ih (pos + 448) w hw
    · cases hw

theorem collectWindowsAux_head (len fuel pos : Nat) (h : pos < len) :
    (collectWindowsAux len (fuel + 1) pos).head? =
      some (pos, min (pos + 512) len) := by
  simp only [collectWindowsAux, if_pos h]
  split
  · rfl
  · rfl

theorem collectWindowsAux_chain (len : Nat) : ∀ (fuel pos : Nat),
    List.Chain' (fun a b : Nat × Nat => b.1 = a.1 + 448)
      (collectWindowsAux len fuel pos) := by
  intro fuel
  induction fuel with
  | zero => intro pos; exact List.chain'_nil
  | succ f ih =>
    intro pos
    simp only [collectWindowsAux]
    split
    · split
      · exact List.chain'_singleton _
      · rw [List.chain'_cons']
        refine ⟨fun y hy => ?_, ih (pos + 448)⟩
        cases f with
        | zero => simp [collectWindowsAux] at hy
        | succ f2 =>
          by_cases hlt : pos + 448 < len
          · rw [collectWindowsAux_head len f2 (pos + 448) hlt] at hy
            simp only [Option.mem_def, Option.some.injEq] at hy
            rw [← hy]
          · simp [collectWindowsAux, hlt] at hy
    · exact List.chain'_nil

theorem collectWindows_head (len : Nat) (h : 0 < len) :
    (collectWindows len).head? = some (0, min 512 len) := by
  cases len with
  | zero => cases h
  | succ n =>
    have := collectWindowsAux_head (n + 1) n 0 h
    simpa [collectWindows] using this

theorem embed_single_text_length (hidden : List Int → List Int → Nat → Nat → ℝ)
    (ids mask : List Int) : (embed_single_text hidden ids mask).length = 384 := by
  unfold embed_single_text
  split
  · rename_i hlen
    rw [normalizeIfBig_length, List.length_map, List.length_range]
    have h0 : 0 < ids.length := lt_trans (by norm_num) hlen
    have hhead := collectWindows_head ids.length h0
    cases hws : collectWindows ids.length with
    | nil => rw [hws] at hhead; cases hhead
    | cons w ws' =>
      rw [List.map_cons, List.headD_cons]
      exact forward_length hidden _ _
  · exact forward_length hidden _ _

theorem embed_single_text_norm (hidden : List Int → List Int → Nat → Nat → ℝ)
    (ids mask : List Int) :
    l2norm (embed_single_text hidden ids mask) = 1
    ∨ l2norm (embed_single_text hidden ids mask) ≤ 1e-6 := by
  unfold embed_single_text
  split
  · exact normalizeIfBig_norm _
  · unfold forward
    exact normalizeIfBig_norm _

/-- C8.  embed_text returns the 384-dimensional zero vector when the
trimmed text is empty or the token count is below 8; otherwise the result
has dimension 384 and, whenever its norm exceeds 1e-6, it is
L2-normalized (norm exactly 1 in the real-valued idealisation). -/
theorem embed_text_rules (tok : String → List Int)
    (tokSp : String → List Int × List Int)
    (hidden : List Int → List Int → Nat → Nat → ℝ) (text : String) :
    (strTrim text = "" →
      embed_text tok tokSp hidden text = List.replicate 384 0)
    ∧ ((tok text).length < 8 →
      embed_text tok tokSp hidden text = List.replicate 384 0)
    ∧ (embed_text tok tokSp hidden text).length = 384
    ∧ (1e-6 < l2norm (embed_text tok tokSp hidden text) →
        l2norm (embed_text tok tokSp hidden text) = 1) := by
  refine ⟨?_, ?_, ?_, ?_⟩
  · intro h
    rw [embed_text, if_pos h]
  · intro h
    rw [embed_text]
    by_cases ht : strTrim text = ""
    · rw [if_pos ht]
    · rw [if_neg ht, if_pos h]
  · rw [embed_text]
    split
    · exact List.length_replicate 384 0
    · split
      · exact List.length_replicate 384 0
      · exact embed_single_text_length hidden _ _
  · by_cases h1 : strTrim text = ""
    · intro h
      rw [embed_text, if_pos h1, l2norm_replicate_zero] at h
      norm_num at h
    · by_cases h2 : (tok text).length < 8
      · intro h
        rw [embed_text, if_neg h1, if_pos h2, l2norm_replicate_zero] at h
        norm_num at h
      · intro h
        rw [embed_text, if_neg h1, if_neg h2] at h ⊢
        rcases embed_single_text_norm hidden (tokSp text).1 (tokSp text).2
          with he | he
        · exact he
        · exact absurd h (not_lt.mpr he)

/-- Witness for C8: embed_text on the empty string with a trivial model
returns the 384-dimensional zero vector. -/
theorem embed_text_rules_witness :
    strTrim "" = ""
    ∧ embed_text (fun _ => []) (fun _ => ([], [])) (fun _ _ _ _ => 0) "" =
        List.replicate 384 0 :=
  ⟨rfl,
    (embed_text_rules (fun _ => []) (fun _ => ([], []))
      (fun _ _ _ _ => 0) "").1 rfl⟩

/-- C3.  For tokenizations longer than 512 tokens, the chunking loop
slides windows of width 512 with stride 448 (each window ends at
min (start + 512) len, consecutive starts differ by 448, the first window
is 0..512), every window is zero-padded to 512 in both ids and attention
mask, the output is 384-dimensional, and a 1100-token input produces
exactly the windows 0..512, 448..960, 896..1100. -/
theorem embed_chunking (hidden : List Int → List Int → Nat → Nat → ℝ)
    (ids mask : List Int) (h : 512 < ids.length) :
    (∀ w ∈ collectWindows ids.length, w.2 = min (w.1 + 512) ids.length)
    ∧ List.Chain' (fun a b : Nat × Nat => b.1 = a.1 + 448)
        (collectWindows ids.length)
    ∧ (collectWindows ids.length).head? = some (0, 512)
    ∧ (∀ w ∈ collectWindows ids.length,
        (resize512 ((ids.drop w.1).take (w.2 - w.1))).length = 512
        ∧ (resize512 ((mask.drop w.1).take (w.2 - w.1))).length = 512)
    ∧ (embed_single_text hidden ids mask).length = 384
    ∧ collectWindows 1100 = [(0, 512), (448, 960), (896, 1100)] := by
  refine ⟨collectWindowsAux_snd _ _ _, collectWindowsAux_chain _ _ _, ?_,
    fun w _ => ⟨resize512_length _, resize512_length _⟩,
    embed_single_text_length hidden ids mask, by decide⟩
  have h0 : 0 < ids.length := lt_trans (by norm_num) h
  rw [collectWindows_head ids.length h0, min_eq_left (le_of_lt h)]

/-- Witness for C3: the chunking facts evaluated on a concrete 1100-token
input with a trivial model. -/
theorem embed_chunking_witness :
    collectWindows 1100 = [(0, 512), (448, 960), (896, 1100)]
    ∧ (collectWindows (List.replicate 1100 (0 : Int)).length).head? =
        some (0, 512) := by
  have h := embed_chunking (fun _ _ _ _ => 0) (List.replicate 1100 0)
    (List.replicate 1100 1) (by rw [List.length_replicate]; norm_num)
  exact ⟨h.2.2.2.2.2, h.2.2.1⟩

end SummerExplorer
